import Mathlib

/-!
Verification of the restricted regular-expression engine in `lab3.py`.

The engine compiles a pattern over ASCII literals, the wildcard `.` and the
repetition operators `*` and `+` into a directed graph of typed states
(`RegexFSM.__init__`), then decides acceptance of an input string by a
depth-first search over (state, position) pairs with a visited-set guard
(`RegexFSM.check_string`).

The embedding below mirrors the Python source:
* states live in an arena (`List StateRec`) in creation order, exactly the
  order in which the Python code appends them to `self.states` (with the
  `TerminationState`, which Python never appends to `self.states`, placed
  last, since edges refer to it);
* each state stores its `kind` (the Python class, with the wrapped state of
  `StarState`/`PlusState` stored structurally since `check_self` only
  consults the wrapped state's predicate, which is immutable) and its
  `next` list of arena indices (the Python `next_states` list of object
  references);
* `stepChar` performs one iteration of the `while` loop of
  `RegexFSM.__init__`; `compileChars` runs the loop and appends the
  termination state;
* `dfs` is the inner `dfs` of `check_string`, with the mutable shared
  `visited` set threaded explicitly and a fuel argument for termination;
  `checkString` supplies fuel `|arena| * (|input| + 1) + 1`, which is shown
  sufficient below (`dfs_total`).
-/

/-- The class of a state, mirroring the Python class hierarchy.  `star` and
`plus` store the kind of the wrapped state (`checking_state`), which is all
`check_self` ever reads from it. -/
inductive Kind where
  | start
  | termination
  | dot
  | ascii (c : Char)
  | star (inner : Kind)
  | plus (inner : Kind)
  deriving DecidableEq

/-- `check_self` of each state class: `StartState`/`DotState` accept any
character, `TerminationState` none, `AsciiState` its own symbol, and
`StarState`/`PlusState` delegate to the wrapped state. -/
def checkSelf : Kind → Char → Bool
  | Kind.start, _ => true
  | Kind.termination, _ => false
  | Kind.dot, _ => true
  | Kind.ascii c, ch => ch == c
  | Kind.star k, ch => checkSelf k ch
  | Kind.plus k, ch => checkSelf k ch

/-- One state of the automaton: its kind and its `next_states`, as arena
indices in creation order. -/
structure StateRec where
  kind : Kind
  next : List Nat
  deriving DecidableEq

/-- The ways compilation can fail in the Python source: `ValueError` for a
character that is not ASCII (`raise ValueError("Invalid character")`), and
the `IndexError` from `self.states[-2]` when an operator appears with only
the start state before it.  The spec folds both into `InvalidPatternError`. -/
inductive CompileError where
  | invalidChar
  | indexFault
  deriving DecidableEq

/-- Look up a state record by arena index (total, with an inert default;
all indices produced by compilation are in bounds). -/
def recAt (A : List StateRec) (i : Nat) : StateRec :=
  (A[i]?).getD ⟨Kind.termination, []⟩

/-- `xs.append(..)` / `xs.extend(..)` on the `next_states` of the state at
index `i`. -/
def addEdges (A : List StateRec) (i : Nat) (es : List Nat) : List StateRec :=
  match A[i]? with
  | some r => A.set i ⟨r.kind, r.next ++ es⟩
  | none => A

/-- Append a fresh state of kind `k`: add an edge from the current last
state to it and push it onto the arena (the literal/dot/termination step of
`RegexFSM.__init__`). -/
def pushState (A : List StateRec) (k : Kind) : List StateRec :=
  addEdges A (A.length - 1) [A.length] ++ [⟨k, []⟩]

/-- One iteration of the compilation loop of `RegexFSM.__init__` on the
current character. -/
def stepChar (A : List StateRec) (c : Char) : Except CompileError (List StateRec) :=
  if c.toNat < 128 ∧ c ≠ '*' ∧ c ≠ '+' ∧ c ≠ '.' then
    Except.ok (pushState A (Kind.ascii c))
  else if c = '.' then
    Except.ok (pushState A Kind.dot)
  else if c = '*' then
    if A.length < 2 then Except.error CompileError.indexFault
    else
      let n := A.length
      let base := recAt A (n - 1)
      let starNext := n :: base.next
      let A1 := addEdges A (n - 1) starNext
      let A2 := addEdges A1 (n - 2) [n]
      Except.ok (A2 ++ [⟨Kind.star base.kind, starNext⟩])
  else if c = '+' then
    if A.length < 2 then Except.error CompileError.indexFault
    else
      let n := A.length
      let base := recAt A (n - 1)
      let plusNext := n :: base.next
      let A1 := addEdges A (n - 2) [n]
      Except.ok (A1 ++ [⟨Kind.plus base.kind, plusNext⟩])
  else
    Except.error CompileError.invalidChar

/-- The compilation loop over the pattern characters. -/
def build : List Char → List StateRec → Except CompileError (List StateRec)
  | [], A => Except.ok A
  | c :: cs, A =>
    match stepChar A c with
    | Except.ok A1 => build cs A1
    | Except.error e => Except.error e

/-- `RegexFSM.__init__` on a pattern given as a character list: start from
`[StartState]`, run the loop, then attach the termination state to the last
state. -/
def compileChars (p : List Char) : Except CompileError (List StateRec) :=
  (build p [⟨Kind.start, []⟩]).map (fun A => pushState A Kind.termination)

/-- `RegexFSM.__init__` on a pattern string. -/
def compileRegex (p : String) : Except CompileError (List StateRec) :=
  compileChars p.toList

/-- Whether some transition target is the termination state: the acceptance
test `any(isinstance(s, TerminationState) for s in state.next_states)`. -/
def isTerm : Kind → Bool
  | Kind.termination => true
  | _ => false

/-- The loop over `state.next_states` inside `dfs`: try each neighbour in
order, consuming the current character when the neighbour's `check_self`
accepts it and moving without consuming otherwise, threading the shared
visited set.  `dfsRec` is the recursive call at one less fuel. -/
def dfsList (dfsRec : List (Nat × Nat) → Nat → Nat → Option (Bool × List (Nat × Nat)))
    (A : List StateRec) (c : Char) (idx : Nat) :
    List Nat → List (Nat × Nat) → Option (Bool × List (Nat × Nat))
  | [], vis => some (false, vis)
  | j :: rest, vis =>
    match (if checkSelf (recAt A j).kind c then dfsRec vis j (idx + 1) else dfsRec vis j idx) with
    | none => none
    | some (true, vis2) => some (true, vis2)
    | some (false, vis2) => dfsList dfsRec A c idx rest vis2

/-- The body of one `dfs` call: visited-set guard, end-of-input base case,
then the neighbour loop. -/
def dfsCore (A : List StateRec) (s : List Char)
    (dfsRec : List (Nat × Nat) → Nat → Nat → Option (Bool × List (Nat × Nat)))
    (vis : List (Nat × Nat)) (st idx : Nat) : Option (Bool × List (Nat × Nat)) :=
  if (st, idx) ∈ vis then some (false, vis)
  else
    let vis1 := (st, idx) :: vis
    if idx = s.length then
      some ((recAt A st).next.any (fun j => isTerm (recAt A j).kind), vis1)
    else
      dfsList dfsRec A (s.getD idx ' ') idx (recAt A st).next vis1

/-- The `dfs` of `check_string`, with fuel bounding the recursion depth
(`none` means the fuel ran out; `checkString` supplies enough). -/
def dfs (A : List StateRec) (s : List Char) :
    Nat → List (Nat × Nat) → Nat → Nat → Option (Bool × List (Nat × Nat))
  | 0, _, _, _ => none
  | fuel + 1, vis, st, idx => dfsCore A s (dfs A s fuel) vis st idx

/-- `RegexFSM.check_string` on a character list: run `dfs` from the start
state (index 0) at position 0 with an empty visited set. -/
def checkString (A : List StateRec) (s : List Char) : Option Bool :=
  (dfs A s (A.length * (s.length + 1) + 1) [] 0 0).map Prod.fst

/-- `RegexFSM.check_string` on a string. -/
def accepts (A : List StateRec) (s : String) : Option Bool :=
  checkString A s.toList


/-! ## Predicates used by the verification

`EdgesLT`/`WFArena` say that every transition target is a valid arena
index.  `VisOK` is the invariant of the visited set threaded through `dfs`.
`kindOfChar`/`isLitChar`/`chainRecs` describe the chain-shaped automaton
that an operator-free pattern compiles to.  `NoTermKinds`/`ChainOut` are
the builder invariants behind the arena-shape theorem, and `isPlus` tests
for a `PlusState`. -/

def EdgesLT (A : List StateRec) (m : Nat) : Prop :=
  ∀ r ∈ A, ∀ j ∈ r.next, j < m

def WFArena (A : List StateRec) : Prop := EdgesLT A A.length

def VisOK (N L : Nat) (vis : List (Nat × Nat)) : Prop :=
  vis.Nodup ∧ ∀ q ∈ vis, q.1 < N ∧ q.2 ≤ L

def kindOfChar (c : Char) : Kind :=
  if c = '.' then Kind.dot else Kind.ascii c

def isLitChar (c : Char) : Prop :=
  c.toNat < 128 ∧ c ≠ '*' ∧ c ≠ '+'

instance (c : Char) : Decidable (isLitChar c) := by
  unfold isLitChar
  infer_instance

def chainRecs : Nat → List Kind → List StateRec
  | _, [] => []
  | i, k :: ks => ⟨k, if ks.isEmpty then [] else [i + 1]⟩ :: chainRecs (i + 1) ks

def isPlus : Kind → Bool
  | Kind.plus _ => true
  | _ => false

def NoTermKinds (A : List StateRec) : Prop :=
  ∀ r ∈ A, r.kind ≠ Kind.termination

def ChainOut (A : List StateRec) : Prop :=
  ∀ i r r', A[i]? = some r → A[i + 1]? = some r' → r.next ≠ [] ∨ isPlus r'.kind = true

/-! ## Concrete evaluations

These theorems evaluate the embedded compiler and matcher on the concrete
patterns and inputs named by the specification. -/

/-- Claim C1: the spec asserts that for pattern `a*` the empty string is
accepted (the `Repeat0` zero-match property) and `"a" * n` is accepted for
every `n ≥ 0`.  The code rejects the empty string: the end-of-input base
case of `dfs` looks for a `TerminationState` among the current state's
transitions, and the start state of `a*` has only the `'a'` state and the
star state as neighbours, so `check_string("")` is `False`.  Strings of one
or more `'a'` are accepted. -/
theorem c1_star_empty_rejected :
    (compileRegex "a*").toOption.map (fun A => accepts A "") = some (some false) ∧
    (compileRegex "a*").toOption.map (fun A => accepts A "a") = some (some true) ∧
    (compileRegex "a*").toOption.map (fun A => accepts A "aaaa") = some (some true) := by
  decide

/-- Claim C2, counterexample: the spec asserts that pattern `a*4.+hi`
rejects `"44hi"`, but the code accepts it. -/
theorem c2_counterexample :
    (compileRegex "a*4.+hi").toOption.map (fun A => accepts A "44hi") ≠ some (some false) := by
  decide

/-- Claim C2, amended: pattern `a*4.+hi` accepts `"44hi"`.  The `+` wraps
the dot, so the plus state consumes the second `'4'` and the `'h'`, and the
zero-width pass-through move then skips the literal `'h'` state (whose
predicate rejects the current character `'i'`), letting the `'i'` state
match. -/
theorem c2_pass_through_accepts :
    (compileRegex "a*4.+hi").toOption.map (fun A => accepts A "44hi") = some (some true) := by
  decide

/-- Claim C4: for pattern `a+` the empty string is rejected and `"a"` is
accepted, even though no reciprocal edge is added from the base state to
the plus state. -/
theorem c4_plus_at_least_one :
    (compileRegex "a+").toOption.map (fun A => (accepts A "", accepts A "a"))
      = some (some false, some true) := by
  decide

/-- Claim C3, counterexample: the compiled automaton of the operator-free
pattern `ab` accepts the shorter string `"b"`: when a neighbour's predicate
rejects the current character the matcher moves to it without consuming
anything, so the `'a'` state is skipped for free.  This refutes the
claimed length equality. -/
theorem c3_counterexample :
    (compileRegex "ab").toOption.map (fun A => accepts A "b") = some (some true) ∧
    ("b" : String).length ≠ ("ab" : String).length := by
  decide

/-- Claim C6, counterexample: in the compiled automaton of `a+`, the state
at index 1 (the `AsciiState 'a'` base wrapped by the plus) is not the
termination state and has no outgoing transitions. -/
theorem c6_counterexample :
    (compileRegex "a+").toOption.map
        (fun A => ((recAt A 1).next.isEmpty, isTerm (recAt A 1).kind))
      = some (true, false) := by
  decide

/-- Claim C7, counterexample: compiling `a#b` succeeds.  `'#'` is ASCII and
is not one of `*`, `+`, `.`, so `RegexFSM.__init__` makes it an
`AsciiState` literal instead of raising. -/
theorem c7_counterexample : (compileRegex "a#b").toOption.isSome = true := by
  decide

/-- Claim C7, amended: `a#b` compiles to an automaton that accepts the
literal string `"a#b"`; the invalid-character error is raised only for
characters that are not ASCII, e.g. for the pattern `aλb`. -/
theorem c7_hash_is_literal :
    (compileRegex "a#b").toOption.map (fun A => accepts A "a#b") = some (some true) ∧
    compileRegex "aλb" = Except.error CompileError.invalidChar := by
  exact ⟨by decide, rfl⟩

/-- Claim C8, counterexample: a pattern with two operators in a row
compiles successfully when the first operator has a preceding atom (the
second operator simply wraps the first repeat state), so compilation does
not fail on `a**` or `a*+`. -/
theorem c8_counterexample :
    (compileRegex "a**").toOption.isSome = true ∧
    (compileRegex "a*+").toOption.isSome = true := by
  decide

/-- Claim C8, amended: a pattern beginning with `*` or `+` fails at compile
time with the index fault from `self.states[-2]` (the spec folds this into
`InvalidPatternError`), and no automaton is returned; but two operators in
a row, when preceded by an atom, compile successfully. -/
theorem c8_leading_operator_faults :
    (∀ cs : List Char, compileChars ('*' :: cs) = Except.error CompileError.indexFault) ∧
    (∀ cs : List Char, compileChars ('+' :: cs) = Except.error CompileError.indexFault) ∧
    (compileRegex "a**").toOption.isSome = true := by
  exact ⟨fun cs => rfl, fun cs => rfl, by decide⟩

/-- Sanity check: the three acceptance examples printed by the module's
demonstration entry point and doctest. -/
theorem demo_examples :
    (compileRegex "a*4.+hi").toOption.map
        (fun A => (accepts A "aaaaaa4uhi", accepts A "4uhi", accepts A "meow"))
      = some (some true, some true, some false) := by
  decide

/-- Sanity check: the spec's wildcard property for pattern `a.c` holds. -/
theorem wildcard_examples :
    (compileRegex "a.c").toOption.map
        (fun A => (accepts A "abc", accepts A "axc", accepts A "ac"))
      = some (some true, some true, some false) := by
  decide

/-! ## Well-formedness of compiled arenas -/

theorem edgesLT_mono {A : List StateRec} {m m' : Nat} (h : m ≤ m') (hA : EdgesLT A m) :
    EdgesLT A m' := fun r hr j hj => lt_of_lt_of_le (hA r hr j hj) h

theorem length_addEdges (A : List StateRec) (i : Nat) (es : List Nat) :
    (addEdges A i es).length = A.length := by
  unfold addEdges
  cases h : A[i]? with
  | none => rfl
  | some r => simp [List.length_set]

theorem edgesLT_addEdges {A : List StateRec} {m : Nat} {i : Nat} {es : List Nat}
    (hA : EdgesLT A m) (hes : ∀ j ∈ es, j < m) : EdgesLT (addEdges A i es) m := by
  unfold addEdges
  cases h : A[i]? with
  | none => exact hA
  | some r =>
    intro r' hr' j hj
    rcases List.mem_or_eq_of_mem_set hr' with hmem | rfl
    · exact hA r' hmem j hj
    · rcases List.mem_append.mp hj with hj1 | hj2
      · exact hA r (List.getElem?_mem h) j hj1
      · exact hes j hj2

theorem edgesLT_append {A : List StateRec} {m : Nat} {r : StateRec}
    (hA : EdgesLT A m) (hr : ∀ j ∈ r.next, j < m) : EdgesLT (A ++ [r]) m := by
  intro r' hr' j hj
  rcases List.mem_append.mp hr' with hmem | hmem
  · exact hA r' hmem j hj
  · rcases List.mem_singleton.mp hmem with rfl
    exact hr j hj

theorem recAt_mem {A : List StateRec} {i : Nat} (h : i < A.length) : recAt A i ∈ A := by
  unfold recAt
  rw [List.getElem?_eq_getElem h]
  exact List.getElem_mem h

theorem length_pushState (A : List StateRec) (k : Kind) :
    (pushState A k).length = A.length + 1 := by
  unfold pushState
  simp [length_addEdges]

theorem pushState_edges {A : List StateRec} (k : Kind) (hA : EdgesLT A A.length) :
    EdgesLT (pushState A k) (A.length + 1) := by
  unfold pushState
  apply edgesLT_append
  · apply edgesLT_addEdges (edgesLT_mono (Nat.le_succ _) hA)
    intro j hj
    rcases List.mem_singleton.mp hj with rfl
    exact Nat.lt_succ_self _
  · intro j hj
    cases hj

theorem stepChar_wf {A B : List StateRec} {c : Char} (hA : WFArena A)
    (h : stepChar A c = Except.ok B) : WFArena B ∧ B.length = A.length + 1 := by
  unfold WFArena at *
  unfold stepChar at h
  split_ifs at h with h1 h2 h3 h4 h5 h6
  · rcases Except.ok.inj h with rfl
    exact ⟨by rw [length_pushState]; exact pushState_edges _ hA, length_pushState A _⟩
  · rcases Except.ok.inj h with rfl
    exact ⟨by rw [length_pushState]; exact pushState_edges _ hA, length_pushState A _⟩
  · -- star branch
    rcases Except.ok.inj h with rfl
    have hbase : ∀ j ∈ (recAt A (A.length - 1)).next, j < A.length := by
      intro j hj
      exact hA _ (recAt_mem (by omega)) j hj
    have hstarNext : ∀ j ∈ A.length :: (recAt A (A.length - 1)).next, j < A.length + 1 := by
      intro j hj
      rcases List.mem_cons.mp hj with rfl | hj2
      · exact Nat.lt_succ_self _
      · exact Nat.lt_succ_of_lt (hbase j hj2)
    constructor
    · simp only [List.length_append, length_addEdges, List.length_singleton]
      apply edgesLT_append
      · apply edgesLT_addEdges
        · exact edgesLT_addEdges (edgesLT_mono (Nat.le_succ _) hA) hstarNext
        · intro j hj
          rcases List.mem_singleton.mp hj with rfl
          exact Nat.lt_succ_self _
      · exact hstarNext
    · simp [length_addEdges]
  · -- plus branch
    rcases Except.ok.inj h with rfl
    have hbase : ∀ j ∈ (recAt A (A.length - 1)).next, j < A.length := by
      intro j hj
      exact hA _ (recAt_mem (by omega)) j hj
    constructor
    · simp only [List.length_append, length_addEdges, List.length_singleton]
      apply edgesLT_append
      · apply edgesLT_addEdges (edgesLT_mono (Nat.le_succ _) hA)
        intro j hj
        rcases List.mem_singleton.mp hj with rfl
        exact Nat.lt_succ_self _
      · intro j hj
        rcases List.mem_cons.mp hj with rfl | hj2
        · exact Nat.lt_succ_self _
        · exact Nat.lt_succ_of_lt (hbase j hj2)
    · simp [length_addEdges]

theorem build_wf : ∀ (cs : List Char) (A B : List StateRec), build cs A = Except.ok B →
    WFArena A → WFArena B ∧ A.length ≤ B.length := by
  intro cs
  induction cs with
  | nil =>
    intro A B h hA
    rcases Except.ok.inj h with rfl
    exact ⟨hA, le_refl _⟩
  | cons c cs ihc =>
    intro A B h hA
    unfold build at h
    cases hstep : stepChar A c with
    | error e => rw [hstep] at h; cases h
    | ok A1 =>
      rw [hstep] at h
      obtain ⟨h1, h2⟩ := stepChar_wf hA hstep
      obtain ⟨hB, hlen⟩ := ihc A1 B h h1
      exact ⟨hB, by omega⟩

theorem compileChars_wf {p : List Char} {A : List StateRec} (h : compileChars p = Except.ok A) :
    WFArena A ∧ 2 ≤ A.length := by
  unfold compileChars at h
  cases hb : build p [⟨Kind.start, []⟩] with
  | error e => rw [hb] at h; cases h
  | ok B =>
    rw [hb] at h
    rcases Except.ok.inj h with rfl
    have hinit : WFArena [(⟨Kind.start, []⟩ : StateRec)] := by
      intro r hr j hj
      rcases List.mem_singleton.mp hr with rfl
      cases hj
    obtain ⟨hB, hlen⟩ := build_wf p _ B hb hinit
    constructor
    · show WFArena (pushState B Kind.termination)
      unfold WFArena
      rw [length_pushState]
      exact pushState_edges _ hB
    · show 2 ≤ (pushState B Kind.termination).length
      rw [length_pushState]
      simp at hlen
      omega

/-! ## Totality of the matcher -/

theorem visOK_length_le {N L : Nat} {vis : List (Nat × Nat)} (h : VisOK N L vis) :
    vis.length ≤ N * (L + 1) := by
  have hcard : vis.toFinset.card = vis.length := List.toFinset_card_of_nodup h.1
  have hsub : vis.toFinset ⊆ (Finset.range N) ×ˢ (Finset.range (L + 1)) := by
    intro q hq
    rw [List.mem_toFinset] at hq
    rcases h.2 q hq with ⟨h1, h2⟩
    rw [Finset.mem_product, Finset.mem_range, Finset.mem_range]
    exact ⟨h1, Nat.lt_succ_of_le h2⟩
  have hle := Finset.card_le_card hsub
  rw [Finset.card_product, Finset.card_range, Finset.card_range, hcard] at hle
  exact hle

theorem dfsList_total (A : List StateRec) (s : List Char) (fuel : Nat)
    (IH : ∀ vis st idx, st < A.length → idx ≤ s.length → VisOK A.length s.length vis →
      A.length * (s.length + 1) + 1 ≤ fuel + vis.length →
      ∃ b vis', dfs A s fuel vis st idx = some (b, vis') ∧ VisOK A.length s.length vis' ∧
        vis.length ≤ vis'.length)
    (c : Char) (idx : Nat) (hidx : idx < s.length) :
    ∀ (js : List Nat) (vis : List (Nat × Nat)), (∀ j ∈ js, j < A.length) →
      VisOK A.length s.length vis →
      A.length * (s.length + 1) + 1 ≤ fuel + vis.length →
      ∃ b vis', dfsList (dfs A s fuel) A c idx js vis = some (b, vis') ∧
        VisOK A.length s.length vis' ∧ vis.length ≤ vis'.length := by
  intro js
  induction js with
  | nil =>
    intro vis _ hvis _
    exact ⟨false, vis, rfl, hvis, le_refl _⟩
  | cons j rest ihr =>
    intro vis hjs hvis hfuel
    have hj : j < A.length := hjs j (List.mem_cons_self j rest)
    have hrest : ∀ j' ∈ rest, j' < A.length := fun j' hj' => hjs j' (List.mem_cons_of_mem j hj')
    cases hc : checkSelf (recAt A j).kind c with
    | false =>
      obtain ⟨b, vis2, heq, hvis2, hlen2⟩ := IH vis j idx hj (le_of_lt hidx) hvis hfuel
      cases b with
      | true =>
        exact ⟨true, vis2, by simp [dfsList, hc, heq], hvis2, hlen2⟩
      | false =>
        obtain ⟨b3, vis3, heq3, hvis3, hlen3⟩ := ihr vis2 hrest hvis2 (by omega)
        exact ⟨b3, vis3, by simp [dfsList, hc, heq, heq3], hvis3, le_trans hlen2 hlen3⟩
    | true =>
      obtain ⟨b, vis2, heq, hvis2, hlen2⟩ := IH vis j (idx + 1) hj hidx hvis hfuel
      cases b with
      | true =>
        exact ⟨true, vis2, by simp [dfsList, hc, heq], hvis2, hlen2⟩
      | false =>
        obtain ⟨b3, vis3, heq3, hvis3, hlen3⟩ := ihr vis2 hrest hvis2 (by omega)
        exact ⟨b3, vis3, by simp [dfsList, hc, heq, heq3], hvis3, le_trans hlen2 hlen3⟩

theorem dfs_total (A : List StateRec) (s : List Char) (hwf : WFArena A) :
    ∀ (fuel : Nat) (vis : List (Nat × Nat)) (st idx : Nat),
      st < A.length → idx ≤ s.length → VisOK A.length s.length vis →
      A.length * (s.length + 1) + 1 ≤ fuel + vis.length →
      ∃ b vis', dfs A s fuel vis st idx = some (b, vis') ∧ VisOK A.length s.length vis' ∧
        vis.length ≤ vis'.length := by
  intro fuel
  induction fuel with
  | zero =>
    intro vis st idx _ _ hvis hfuel
    exfalso
    have := visOK_length_le hvis
    omega
  | succ fuel ih =>
    intro vis st idx hst hidx hvis hfuel
    rw [dfs]
    unfold dfsCore
    by_cases hmem : (st, idx) ∈ vis
    · rw [if_pos hmem]
      exact ⟨false, vis, rfl, hvis, le_refl _⟩
    · rw [if_neg hmem]
      have hvis1 : VisOK A.length s.length ((st, idx) :: vis) := by
        refine ⟨List.Nodup.cons hmem hvis.1, ?_⟩
        intro q hq
        rcases List.mem_cons.mp hq with rfl | hq2
        · exact ⟨hst, hidx⟩
        · exact hvis.2 q hq2
      by_cases hend : idx = s.length
      · rw [if_pos hend]
        exact ⟨_, (st, idx) :: vis, rfl, hvis1, Nat.le_succ _⟩
      · rw [if_neg hend]
        have hidx' : idx < s.length := lt_of_le_of_ne hidx hend
        have hjs : ∀ j ∈ (recAt A st).next, j < A.length := by
          intro j hj
          exact hwf _ (recAt_mem hst) j hj
        obtain ⟨b, vis', heq, hv', hl⟩ :=
          dfsList_total A s fuel ih (s.getD idx ' ') idx hidx' (recAt A st).next
            ((st, idx) :: vis) hjs hvis1 (by simp only [List.length_cons]; omega)
        refine ⟨b, vis', heq, hv', ?_⟩
        simp only [List.length_cons] at hl
        omega

/-- Claim C9: for every successfully compiled automaton and every input
string, `check_string` terminates and returns a boolean: the fuel
`|arena| * (|input| + 1) + 1` supplied by `checkString` always suffices,
because positions are bounded by the input length and the visited-set
guard prevents revisiting any (state, position) pair. -/
theorem c9_accepts_total (p : String) (A : List StateRec) (s : String)
    (h : compileRegex p = Except.ok A) : (accepts A s).isSome := by
  obtain ⟨hwf, hlen⟩ := compileChars_wf h
  unfold accepts checkString
  obtain ⟨b, vis', heq, _, _⟩ :=
    dfs_total A s.toList hwf (A.length * (s.toList.length + 1) + 1) [] 0 0
      (by omega) (Nat.zero_le _) ⟨List.nodup_nil, by intro q hq; cases hq⟩
      (by simp)
  rw [heq]
  rfl

/-- Witness for C9 at the pattern `a` and the input `a`. -/
theorem c9_accepts_total_witness :
    (accepts [⟨Kind.start, [1]⟩, ⟨Kind.ascii 'a', [2]⟩, ⟨Kind.termination, []⟩] "a").isSome :=
  c9_accepts_total "a" _ "a" rfl

/-! ## Operator-free patterns compile to a chain -/

theorem chainRecs_length : ∀ (i : Nat) (l : List Kind), (chainRecs i l).length = l.length := by
  intro i l
  induction l generalizing i with
  | nil => rfl
  | cons k ks ih => simp [chainRecs, ih]

theorem addEdges_cons (r : StateRec) (A : List StateRec) (i : Nat) (es : List Nat) :
    addEdges (r :: A) (i + 1) es = r :: addEdges A i es := by
  unfold addEdges
  rw [List.getElem?_cons_succ]
  cases h : A[i]? with
  | none => rfl
  | some r0 => simp [List.set_cons_succ]

theorem chain_step : ∀ (l : List Kind) (i : Nat) (k : Kind), l ≠ [] →
    addEdges (chainRecs i l) (l.length - 1) [i + l.length] ++ [⟨k, []⟩]
      = chainRecs i (l ++ [k]) := by
  intro l
  induction l with
  | nil => intro i k h; exact absurd rfl h
  | cons k0 ks ih =>
    intro i k _
    cases ks with
    | nil =>
      simp [chainRecs, addEdges]
    | cons k1 ks1 =>
      have hne : k1 :: ks1 ≠ [] := List.cons_ne_nil k1 ks1
      have hstep := ih (i + 1) k hne
      have lhs1 : chainRecs i (k0 :: k1 :: ks1)
          = ⟨k0, [i + 1]⟩ :: chainRecs (i + 1) (k1 :: ks1) := by
        simp [chainRecs]
      have rhs1 : chainRecs i ((k0 :: k1 :: ks1) ++ [k])
          = ⟨k0, [i + 1]⟩ :: chainRecs (i + 1) ((k1 :: ks1) ++ [k]) := by
        simp [chainRecs]
      rw [lhs1, rhs1]
      have hidx : (k0 :: k1 :: ks1).length - 1 = ((k1 :: ks1).length - 1) + 1 := by
        simp
      rw [hidx, addEdges_cons, List.cons_append]
      congr 1
      have harith : i + (k0 :: k1 :: ks1).length = (i + 1) + (k1 :: ks1).length := by
        simp
        omega
      rw [harith]
      exact hstep

theorem pushState_chain (l : List Kind) (k : Kind) (h : l ≠ []) :
    pushState (chainRecs 0 l) k = chainRecs 0 (l ++ [k]) := by
  unfold pushState
  rw [chainRecs_length]
  have := chain_step l 0 k h
  rw [Nat.zero_add] at this
  exact this

theorem stepChar_lit {c : Char} (hc : isLitChar c) (A : List StateRec) :
    stepChar A c = Except.ok (pushState A (kindOfChar c)) := by
  rcases hc with ⟨h1, h2, h3⟩
  unfold stepChar kindOfChar
  by_cases hdot : c = '.'
  · rw [if_neg, if_pos hdot, if_pos hdot]
    intro hh
    exact hh.2.2.2 hdot
  · rw [if_pos ⟨h1, h2, h3, hdot⟩, if_neg hdot]

theorem build_lit : ∀ (cs : List Char) (l : List Kind), (∀ c ∈ cs, isLitChar c) → l ≠ [] →
    build cs (chainRecs 0 l) = Except.ok (chainRecs 0 (l ++ cs.map kindOfChar)) := by
  intro cs
  induction cs with
  | nil => intro l _ _; simp [build]
  | cons c cs ih =>
    intro l hlit hne
    have hc : isLitChar c := hlit c (List.mem_cons_self c cs)
    have hcs : ∀ c' ∈ cs, isLitChar c' := fun c' h => hlit c' (List.mem_cons_of_mem c h)
    have h1 : build (c :: cs) (chainRecs 0 l)
        = build cs (pushState (chainRecs 0 l) (kindOfChar c)) := by
      show (match stepChar (chainRecs 0 l) c with
        | Except.ok A1 => build cs A1
        | Except.error e => Except.error e) = _
      rw [stepChar_lit hc]
    rw [h1, pushState_chain l _ hne, ih (l ++ [kindOfChar c]) hcs (by simp)]
    simp

theorem compileChars_lit {p : List Char} (hlit : ∀ c ∈ p, isLitChar c) :
    compileChars p
      = Except.ok (chainRecs 0 (Kind.start :: (p.map kindOfChar ++ [Kind.termination]))) := by
  unfold compileChars
  have hinit : [(⟨Kind.start, []⟩ : StateRec)] = chainRecs 0 [Kind.start] := rfl
  rw [hinit, build_lit p [Kind.start] hlit (List.cons_ne_nil _ _)]
  show Except.ok (pushState (chainRecs 0 (Kind.start :: p.map kindOfChar)) Kind.termination) = _
  rw [pushState_chain _ _ (List.cons_ne_nil _ _)]
  rfl

theorem chainRecs_recAt : ∀ (l : List Kind) (i j : Nat), j < l.length →
    recAt (chainRecs i l) j
      = ⟨l.getD j Kind.start, if j + 1 = l.length then [] else [i + j + 1]⟩ := by
  intro l
  induction l with
  | nil => intro i j h; cases h
  | cons k ks ih =>
    intro i j hj
    cases j with
    | zero =>
      show recAt (⟨k, if ks.isEmpty then [] else [i + 1]⟩ :: chainRecs (i + 1) ks) 0 = _
      unfold recAt
      rw [List.getElem?_cons_zero]
      simp only [Option.getD_some, List.getD_cons_zero, List.length_cons]
      congr 1
      by_cases hks : ks.isEmpty
      · rw [if_pos hks, if_pos]
        rw [List.isEmpty_iff] at hks
        simp [hks]
      · rw [if_neg hks, if_neg]
        rw [List.isEmpty_iff] at hks
        intro hcon
        have : ks.length = 0 := by omega
        exact hks (List.length_eq_zero.mp this)
    | succ j =>
      have hj' : j < ks.length := by simp at hj; omega
      show recAt (⟨k, if ks.isEmpty then [] else [i + 1]⟩ :: chainRecs (i + 1) ks) (j + 1) = _
      unfold recAt
      rw [List.getElem?_cons_succ]
      have := ih (i + 1) j hj'
      unfold recAt at this
      rw [this]
      simp only [List.getD_cons_succ, List.length_cons]
      congr 1
      by_cases hend : j + 1 = ks.length
      · rw [if_pos hend, if_pos (by omega)]
      · rw [if_neg hend, if_neg (by omega)]
        congr 1
        omega

/-! ## The matcher on chain arenas -/

theorem fullChain_getD_succ (ks : List Kind) (j : Nat) (hj : j < ks.length) :
    (Kind.start :: (ks ++ [Kind.termination])).getD (j + 1) Kind.start
      = ks.getD j Kind.start := by
  simp only [List.getD_cons_succ]
  rw [List.getD_eq_getElem?_getD, List.getD_eq_getElem?_getD, List.getElem?_append, if_pos hj]

theorem fullChain_getD_last (ks : List Kind) :
    (Kind.start :: (ks ++ [Kind.termination])).getD (ks.length + 1) Kind.start
      = Kind.termination := by
  simp only [List.getD_cons_succ]
  rw [List.getD_eq_getElem?_getD, List.getElem?_append_right (le_refl ks.length)]
  simp

theorem fullChain_recAt_next (ks : List Kind) (j : Nat) (hj : j ≤ ks.length) :
    (recAt (chainRecs 0 (Kind.start :: (ks ++ [Kind.termination]))) j).next = [j + 1] := by
  rw [chainRecs_recAt _ 0 j (by simp; omega)]
  show (if j + 1 = (Kind.start :: (ks ++ [Kind.termination])).length then [] else [0 + j + 1])
    = [j + 1]
  rw [if_neg (by simp; omega)]
  simp

theorem fullChain_recAt_kind (ks : List Kind) (j : Nat) (hj : j < ks.length) :
    (recAt (chainRecs 0 (Kind.start :: (ks ++ [Kind.termination]))) (j + 1)).kind
      = ks.getD j Kind.start := by
  rw [chainRecs_recAt _ 0 (j + 1) (by simp; omega)]
  show (Kind.start :: (ks ++ [Kind.termination])).getD (j + 1) Kind.start = ks.getD j Kind.start
  exact fullChain_getD_succ ks j hj

theorem fullChain_recAt_term (ks : List Kind) :
    recAt (chainRecs 0 (Kind.start :: (ks ++ [Kind.termination]))) (ks.length + 1)
      = ⟨Kind.termination, []⟩ := by
  rw [chainRecs_recAt _ 0 (ks.length + 1) (by simp)]
  rw [if_pos (by simp)]
  rw [fullChain_getD_last]

theorem chain_dfs_accept (ks : List Kind) (s : List Char) (hs : s.length = ks.length)
    (hmatch : ∀ j, j < ks.length → checkSelf (ks.getD j Kind.start) (s.getD j ' ') = true) :
    ∀ (d k fuel : Nat) (vis : List (Nat × Nat)), k + d = ks.length → d + 2 ≤ fuel →
      (∀ j, k ≤ j → j ≤ ks.length → (j, j) ∉ vis) →
      ∃ vis', dfs (chainRecs 0 (Kind.start :: (ks ++ [Kind.termination]))) s fuel vis k k
        = some (true, vis') := by
  intro d
  induction d with
  | zero =>
    intro k fuel vis hk hfuel hvis
    have hkk : k = ks.length := by omega
    subst hkk
    obtain ⟨f, rfl⟩ : ∃ f, fuel = f + 1 := ⟨fuel - 1, by omega⟩
    refine ⟨(ks.length, ks.length) :: vis, ?_⟩
    simp only [dfs, dfsCore]
    rw [if_neg (hvis ks.length (le_refl _) (le_refl _))]
    rw [if_pos (by omega : ks.length = s.length)]
    rw [fullChain_recAt_next ks ks.length (le_refl _)]
    simp only [List.any_cons, List.any_nil, Bool.or_false]
    rw [fullChain_recAt_term]
    rfl
  | succ d ih =>
    intro k fuel vis hk hfuel hvis
    have hkn : k < ks.length := by omega
    obtain ⟨f, rfl⟩ : ∃ f, fuel = f + 1 := ⟨fuel - 1, by omega⟩
    obtain ⟨vis', heq⟩ := ih (k + 1) f ((k, k) :: vis) (by omega) (by omega) (by
      intro j hj1 hj2 hmem
      rcases List.mem_cons.mp hmem with hcon | hmem2
      · have hjk : j = k := congrArg Prod.fst hcon
        omega
      · exact hvis j (by omega) hj2 hmem2)
    refine ⟨vis', ?_⟩
    simp only [dfs, dfsCore]
    rw [if_neg (hvis k (le_refl k) (by omega))]
    rw [if_neg (by omega : ¬ k = s.length)]
    rw [fullChain_recAt_next ks k (le_of_lt hkn)]
    simp only [dfsList]
    rw [fullChain_recAt_kind ks k hkn, hmatch k hkn]
    rw [if_pos rfl, heq]

theorem chain_dfs_ne_true (ks : List Kind) (s : List Char) :
    ∀ (fuel : Nat) (vis : List (Nat × Nat)) (k i : Nat) (v : List (Nat × Nat)),
      (k ≤ ks.length → i + (ks.length - k) < s.length) → k ≤ ks.length + 1 →
      dfs (chainRecs 0 (Kind.start :: (ks ++ [Kind.termination]))) s fuel vis k i
        ≠ some (true, v) := by
  intro fuel
  induction fuel with
  | zero =>
    intro vis k i v _ _
    simp [dfs]
  | succ f ih =>
    intro vis k i v hbound hk
    simp only [dfs, dfsCore]
    by_cases hmem : (k, i) ∈ vis
    · rw [if_pos hmem]
      simp
    · rw [if_neg hmem]
      by_cases hend : i = s.length
      · have hk1 : k = ks.length + 1 := by
          by_contra hcon
          have hkle : k ≤ ks.length := by omega
          have := hbound hkle
          omega
        subst hk1
        rw [if_pos hend, fullChain_recAt_term]
        simp
      · rw [if_neg hend]
        rcases Nat.lt_or_ge k (ks.length + 1) with hklt | hkge
        · have hkn : k ≤ ks.length := by omega
          rw [fullChain_recAt_next ks k hkn]
          have hb := hbound hkn
          simp only [dfsList]
          cases hc : checkSelf
              (recAt (chainRecs 0 (Kind.start :: (ks ++ [Kind.termination]))) (k + 1)).kind
              (s.getD i ' ') with
          | true =>
            rw [if_pos rfl]
            cases hres : dfs (chainRecs 0 (Kind.start :: (ks ++ [Kind.termination]))) s f
                ((k, i) :: vis) (k + 1) (i + 1) with
            | none => simp
            | some bv =>
              obtain ⟨b, v2⟩ := bv
              cases b with
              | true =>
                exact absurd hres
                  (ih ((k, i) :: vis) (k + 1) (i + 1) v2 (fun h => by omega) (by omega))
              | false => simp [dfsList]
          | false =>
            rw [if_neg Bool.false_ne_true]
            cases hres : dfs (chainRecs 0 (Kind.start :: (ks ++ [Kind.termination]))) s f
                ((k, i) :: vis) (k + 1) i with
            | none => simp
            | some bv =>
              obtain ⟨b, v2⟩ := bv
              cases b with
              | true =>
                exact absurd hres
                  (ih ((k, i) :: vis) (k + 1) i v2 (fun h => by omega) (by omega))
              | false => simp [dfsList]
        · have hk1 : k = ks.length + 1 := by omega
          subst hk1
          rw [fullChain_recAt_term]
          simp [dfsList]

/-! ## Acceptance for operator-free patterns -/

theorem litMatch_true (p s : List Char) (A : List StateRec)
    (hlit : ∀ c ∈ p, isLitChar c) (hA : compileChars p = Except.ok A)
    (hlen : s.length = p.length)
    (hmatch : ∀ i, i < p.length → p.getD i ' ' = '.' ∨ s.getD i ' ' = p.getD i ' ') :
    checkString A s = some true := by
  rw [compileChars_lit hlit] at hA
  rcases Except.ok.inj hA with rfl
  have hksl : (p.map kindOfChar).length = p.length := List.length_map p kindOfChar
  have hmatch' : ∀ j, j < (p.map kindOfChar).length →
      checkSelf ((p.map kindOfChar).getD j Kind.start) (s.getD j ' ') = true := by
    intro j hj
    have hjp : j < p.length := by omega
    have hgd : (p.map kindOfChar).getD j Kind.start = kindOfChar (p.getD j ' ') := by
      rw [List.getD_eq_getElem?_getD, List.getD_eq_getElem?_getD, List.getElem?_map,
        List.getElem?_eq_getElem hjp]
      rfl
    rw [hgd]
    rcases hmatch j hjp with hdot | heq
    · rw [hdot]
      simp [kindOfChar, checkSelf]
    · unfold kindOfChar
      by_cases hd : p.getD j ' ' = '.'
      · rw [if_pos hd]
        simp [checkSelf]
      · rw [if_neg hd]
        simp only [checkSelf, heq, beq_self_eq_true]
  have hAlen : (chainRecs 0
      (Kind.start :: (p.map kindOfChar ++ [Kind.termination]))).length = p.length + 2 := by
    rw [chainRecs_length]
    simp
  obtain ⟨vis', heq⟩ := chain_dfs_accept (p.map kindOfChar) s (by omega) hmatch'
    (p.map kindOfChar).length 0
    ((chainRecs 0 (Kind.start :: (p.map kindOfChar ++ [Kind.termination]))).length
      * (s.length + 1) + 1)
    [] (by omega)
    (by
      rw [hAlen]
      have hge : p.length + 2 ≤ (p.length + 2) * (s.length + 1) :=
        Nat.le_mul_of_pos_right _ (by omega)
      omega)
    (fun j _ _ h => by cases h)
  unfold checkString
  rw [heq]
  rfl

theorem litLonger_false (p : List Char) (A : List StateRec) (s : List Char)
    (hlit : ∀ c ∈ p, isLitChar c) (hA : compileChars p = Except.ok A)
    (hlong : p.length < s.length) :
    checkString A s = some false := by
  obtain ⟨hwf, hlen2⟩ := compileChars_wf hA
  obtain ⟨b, vis', heq, _, _⟩ :=
    dfs_total A s hwf (A.length * (s.length + 1) + 1) [] 0 0
      (by omega) (Nat.zero_le _) ⟨List.nodup_nil, by intro q hq; cases hq⟩ (by simp)
  rw [compileChars_lit hlit] at hA
  rcases Except.ok.inj hA with rfl
  cases b with
  | false =>
    unfold checkString
    rw [heq]
    rfl
  | true =>
    exfalso
    refine chain_dfs_ne_true (p.map kindOfChar) s _ [] 0 0 vis' ?_ (by omega) heq
    intro _
    rw [List.length_map]
    omega

/-- Claim C3, amended: for an operator-free ASCII pattern, a positionwise
match of the same length is accepted (each `.` matches any character, each
literal its own character); but the converse direction of the claimed
equivalence fails, because the matcher may skip a state whose predicate
rejects the current character without consuming input (see the
counterexample: pattern `ab` accepts `"b"`). -/
theorem c3_litmatch_accepts (p s : List Char) (A : List StateRec)
    (hlit : ∀ c ∈ p, isLitChar c) (hA : compileChars p = Except.ok A)
    (hlen : s.length = p.length)
    (hmatch : ∀ i, i < p.length → p.getD i ' ' = '.' ∨ s.getD i ' ' = p.getD i ' ') :
    checkString A s = some true :=
  litMatch_true p s A hlit hA hlen hmatch

/-- Witness for the amended C3 at pattern `a.c` and input `axc`. -/
theorem c3_litmatch_accepts_witness :
    checkString [⟨Kind.start, [1]⟩, ⟨Kind.ascii 'a', [2]⟩, ⟨Kind.dot, [3]⟩,
      ⟨Kind.ascii 'c', [4]⟩, ⟨Kind.termination, []⟩] ['a', 'x', 'c'] = some true :=
  c3_litmatch_accepts ['a', '.', 'c'] ['a', 'x', 'c'] _ (by decide) rfl rfl (by decide)

/-- Claim C5: every operator-free ASCII pattern accepts itself, and rejects
itself extended by one extra character `x`. -/
theorem c5_self_accept (p : List Char) (A : List StateRec)
    (hlit : ∀ c ∈ p, isLitChar c) (hA : compileChars p = Except.ok A) :
    checkString A p = some true ∧ checkString A (p ++ ['x']) = some false := by
  constructor
  · exact litMatch_true p p A hlit hA rfl (fun i _ => Or.inr rfl)
  · exact litLonger_false p A (p ++ ['x']) hlit hA (by simp)

/-- Witness for C5 at the pattern `ab`. -/
theorem c5_self_accept_witness :
    checkString [⟨Kind.start, [1]⟩, ⟨Kind.ascii 'a', [2]⟩, ⟨Kind.ascii 'b', [3]⟩,
        ⟨Kind.termination, []⟩] ['a', 'b'] = some true ∧
      checkString [⟨Kind.start, [1]⟩, ⟨Kind.ascii 'a', [2]⟩, ⟨Kind.ascii 'b', [3]⟩,
        ⟨Kind.termination, []⟩] (['a', 'b'] ++ ['x']) = some false :=
  c5_self_accept ['a', 'b'] _ (by decide) rfl

/-- Claim C10: compiling the empty pattern succeeds, producing the two-state
automaton whose start state points at the termination state, and the result
accepts exactly the empty string. -/
theorem c10_empty_pattern :
    compileChars [] = Except.ok [⟨Kind.start, [1]⟩, ⟨Kind.termination, []⟩] ∧
    ∀ cs : List Char,
      checkString [⟨Kind.start, [1]⟩, ⟨Kind.termination, []⟩] cs = some cs.isEmpty := by
  have hA : compileChars [] = Except.ok [⟨Kind.start, [1]⟩, ⟨Kind.termination, []⟩] := rfl
  refine ⟨hA, ?_⟩
  intro cs
  cases cs with
  | nil =>
    have h := litMatch_true [] [] _ (fun c h => absurd h (List.not_mem_nil c)) hA rfl
      (fun i h => absurd h (Nat.not_lt_zero i))
    simpa using h
  | cons c cs' =>
    have h := litLonger_false [] _ (c :: cs') (fun c' h => absurd h (List.not_mem_nil c')) hA
      (by simp)
    simpa using h

/-! ## Shape of compiled arenas: the termination state is the only sink -/

theorem recAt_eq {A : List StateRec} {i : Nat} (h : i < A.length) :
    recAt A i = A.get ⟨i, h⟩ := by
  unfold recAt
  rw [List.getElem?_eq_getElem h]
  rfl

theorem kind_addEdges (A : List StateRec) (i : Nat) (es : List Nat) (j : Nat) :
    ((addEdges A i es)[j]?).map StateRec.kind = (A[j]?).map StateRec.kind := by
  unfold addEdges
  cases h : A[i]? with
  | none => rfl
  | some r =>
    rw [List.getElem?_set]
    by_cases hij : i = j
    · subst hij
      rw [if_pos rfl, if_pos (List.getElem?_eq_some.mp h).1, h]
      rfl
    · rw [if_neg hij]

theorem next_addEdges (A : List StateRec) (i : Nat) (es : List Nat) (j : Nat) (r' : StateRec)
    (h : (addEdges A i es)[j]? = some r') :
    ∃ r, A[j]? = some r ∧ (r'.next = r.next ∨ r'.next = r.next ++ es) := by
  unfold addEdges at h
  cases hi : A[i]? with
  | none =>
    rw [hi] at h
    exact ⟨r', h, Or.inl rfl⟩
  | some r0 =>
    rw [hi, List.getElem?_set] at h
    by_cases hij : i = j
    · subst hij
      rw [if_pos rfl, if_pos (List.getElem?_eq_some.mp hi).1] at h
      rcases Option.some.inj h with rfl
      exact ⟨r0, hi, Or.inr rfl⟩
    · rw [if_neg hij] at h
      exact ⟨r', h, Or.inl rfl⟩

theorem addEdges_self (A : List StateRec) (i : Nat) (es : List Nat) (hi : i < A.length) :
    ∃ r, A[i]? = some r ∧ (addEdges A i es)[i]? = some ⟨r.kind, r.next ++ es⟩ := by
  have h : A[i]? = some (A.get ⟨i, hi⟩) := List.getElem?_eq_getElem hi
  refine ⟨A.get ⟨i, hi⟩, h, ?_⟩
  unfold addEdges
  rw [h]
  exact List.getElem?_set_eq_of_lt _ hi

theorem noTermKinds_addEdges {A : List StateRec} {i : Nat} {es : List Nat}
    (h : NoTermKinds A) : NoTermKinds (addEdges A i es) := by
  intro r hr
  unfold addEdges at hr
  cases hi : A[i]? with
  | none =>
    rw [hi] at hr
    exact h r hr
  | some r0 =>
    rw [hi] at hr
    rcases List.mem_or_eq_of_mem_set hr with hmem | rfl
    · exact h r hmem
    · exact h r0 (List.getElem?_mem hi)

theorem chainOut_addEdges {A : List StateRec} {i : Nat} {es : List Nat}
    (h : ChainOut A) : ChainOut (addEdges A i es) := by
  intro j r r' h1 h2
  obtain ⟨ra, ha, hra⟩ := next_addEdges A i es j r h1
  obtain ⟨rb, hb, _⟩ := next_addEdges A i es (j + 1) r' h2
  have hk : r'.kind = rb.kind := by
    have := kind_addEdges A i es (j + 1)
    rw [h2, hb] at this
    exact Option.some.inj this
  rcases h j ra rb ha hb with hne | hplus
  · left
    rcases hra with hr | hr <;> rw [hr] <;> simp [hne]
  · right
    rw [hk]
    exact hplus

theorem noTermKinds_append {A : List StateRec} {r : StateRec}
    (h : NoTermKinds A) (hr : r.kind ≠ Kind.termination) : NoTermKinds (A ++ [r]) := by
  intro r' hr'
  rcases List.mem_append.mp hr' with h1 | h1
  · exact h r' h1
  · rcases List.mem_singleton.mp h1 with rfl
    exact hr

theorem chainOut_append {A : List StateRec} {r : StateRec} (h : ChainOut A)
    (hlast : ∀ rl, A[A.length - 1]? = some rl → rl.next ≠ [] ∨ isPlus r.kind = true) :
    ChainOut (A ++ [r]) := by
  intro j ra rb h1 h2
  rcases Nat.lt_trichotomy (j + 1) A.length with hlt | heq | hgt
  · rw [List.getElem?_append, if_pos (by omega)] at h1
    rw [List.getElem?_append, if_pos hlt] at h2
    exact h j ra rb h1 h2
  · have hj : j < A.length := by omega
    rw [List.getElem?_append, if_pos hj] at h1
    have h2' : (A ++ [r])[A.length]? = some r := List.getElem?_concat_length A r
    rw [heq, h2'] at h2
    rcases Option.some.inj h2 with rfl
    have hj1 : j = A.length - 1 := by omega
    subst hj1
    exact hlast ra h1
  · exfalso
    have hnone : (A ++ [r])[j + 1]? = none := List.getElem?_eq_none (by simp; omega)
    rw [hnone] at h2
    cases h2

theorem addEdges_other {A : List StateRec} {i j : Nat} {es : List Nat} (hij : i ≠ j) :
    (addEdges A i es)[j]? = A[j]? := by
  unfold addEdges
  cases hi : A[i]? with
  | none => rfl
  | some r => exact List.getElem?_set_ne hij

theorem recAt_eq_of {A : List StateRec} {i : Nat} {r : StateRec} (h : A[i]? = some r) :
    recAt A i = r := by
  unfold recAt
  rw [h]
  rfl

theorem pushState_chainOut {A : List StateRec} (hC : ChainOut A) (h0 : 0 < A.length)
    (k : Kind) : ChainOut (pushState A k) := by
  unfold pushState
  apply chainOut_append (chainOut_addEdges hC)
  intro rl hrl
  left
  obtain ⟨r, hr, hset⟩ := addEdges_self A (A.length - 1) [A.length] (by omega)
  rw [length_addEdges] at hrl
  rw [hset] at hrl
  rcases Option.some.inj hrl with rfl
  simp

theorem pushState_noTerm {A : List StateRec} {k : Kind} (hN : NoTermKinds A)
    (hk : k ≠ Kind.termination) : NoTermKinds (pushState A k) :=
  noTermKinds_append (noTermKinds_addEdges hN) hk

theorem stepChar_inv {A B : List StateRec} {c : Char} (hN : NoTermKinds A) (hC : ChainOut A)
    (h0 : 0 < A.length) (h : stepChar A c = Except.ok B) :
    NoTermKinds B ∧ ChainOut B ∧ 0 < B.length := by
  unfold stepChar at h
  split_ifs at h with h1 h2 h3 h4 h5 h6
  · rcases Except.ok.inj h with rfl
    refine ⟨pushState_noTerm hN (by intro hcon; cases hcon), pushState_chainOut hC h0 _, ?_⟩
    rw [length_pushState]
    omega
  · rcases Except.ok.inj h with rfl
    refine ⟨pushState_noTerm hN (by intro hcon; cases hcon), pushState_chainOut hC h0 _, ?_⟩
    rw [length_pushState]
    omega
  · -- star branch
    rcases Except.ok.inj h with rfl
    have hlen2 : 2 ≤ A.length := by omega
    refine ⟨?_, ?_, by simp⟩
    · apply noTermKinds_append (noTermKinds_addEdges (noTermKinds_addEdges hN))
      intro hcon
      cases hcon
    · apply chainOut_append (chainOut_addEdges (chainOut_addEdges hC))
      intro rl hrl
      left
      obtain ⟨r, hr, hset⟩ :=
        addEdges_self A (A.length - 1) (A.length :: (recAt A (A.length - 1)).next) (by omega)
      rw [length_addEdges, length_addEdges] at hrl
      rw [addEdges_other (by omega : A.length - 2 ≠ A.length - 1), hset] at hrl
      rcases Option.some.inj hrl with rfl
      simp
  · -- plus branch
    rcases Except.ok.inj h with rfl
    have hlen2 : 2 ≤ A.length := by omega
    refine ⟨?_, ?_, by simp⟩
    · apply noTermKinds_append (noTermKinds_addEdges hN)
      intro hcon
      cases hcon
    · apply chainOut_append (chainOut_addEdges hC)
      intro rl _
      right
      rfl

theorem build_inv : ∀ (cs : List Char) (A B : List StateRec), build cs A = Except.ok B →
    NoTermKinds A → ChainOut A → 0 < A.length → NoTermKinds B ∧ ChainOut B ∧ 0 < B.length := by
  intro cs
  induction cs with
  | nil =>
    intro A B h hN hC h0
    rcases Except.ok.inj h with rfl
    exact ⟨hN, hC, h0⟩
  | cons c cs ihc =>
    intro A B h hN hC h0
    unfold build at h
    cases hstep : stepChar A c with
    | error e => rw [hstep] at h; cases h
    | ok A1 =>
      rw [hstep] at h
      obtain ⟨hN1, hC1, h01⟩ := stepChar_inv hN hC h0 hstep
      exact ihc A1 B h hN1 hC1 h01

/-- Claim C6, amended: in every successfully compiled automaton, the last
state is the single Termination state and has no outgoing transition, and
every other state either has at least one outgoing transition or is the
base state wrapped by a `+` (the state created immediately before a
`PlusState`), which is left with none because the `+` rule adds no
reciprocal edge. -/
theorem c6_termination_only_sink (p : List Char) (A : List StateRec)
    (hA : compileChars p = Except.ok A) :
    2 ≤ A.length ∧
    (recAt A (A.length - 1)).kind = Kind.termination ∧
    (recAt A (A.length - 1)).next = [] ∧
    ∀ i, i + 1 < A.length →
      (recAt A i).kind ≠ Kind.termination ∧
      ((recAt A i).next ≠ [] ∨ isPlus (recAt A (i + 1)).kind = true) := by
  have hlen2 := (compileChars_wf hA).2
  unfold compileChars at hA
  cases hb : build p [⟨Kind.start, []⟩] with
  | error e => rw [hb] at hA; cases hA
  | ok B =>
    rw [hb] at hA
    rcases Except.ok.inj hA with rfl
    obtain ⟨hNB, hCB, hBpos⟩ := build_inv p _ B hb
      (by
        intro r hr
        rcases List.mem_singleton.mp hr with rfl
        intro hcon
        cases hcon)
      (by
        intro i r r' _ h2
        exfalso
        have := (List.getElem?_eq_some.mp h2).1
        simp at this)
      (by simp)
    have hAlen : (pushState B Kind.termination).length = B.length + 1 := length_pushState B _
    have hA'len : (addEdges B (B.length - 1) [B.length]).length = B.length :=
      length_addEdges B _ _
    have hterm : (pushState B Kind.termination)[B.length]? = some ⟨Kind.termination, []⟩ := by
      unfold pushState
      have hcat := List.getElem?_concat_length (addEdges B (B.length - 1) [B.length])
        (⟨Kind.termination, []⟩ : StateRec)
      rw [hA'len] at hcat
      exact hcat
    have hidx : (pushState B Kind.termination).length - 1 = B.length := by
      rw [hAlen]
      omega
    refine ⟨hlen2, ?_, ?_, ?_⟩
    · rw [hidx, recAt_eq_of hterm]
    · rw [hidx, recAt_eq_of hterm]
    · intro i hi
      have him : i < B.length := by
        rw [hAlen] at hi
        omega
      have h1 : (pushState B Kind.termination)[i]? = (addEdges B (B.length - 1) [B.length])[i]? := by
        unfold pushState
        rw [List.getElem?_append, if_pos (by rw [hA'len]; exact him)]
      constructor
      · obtain ⟨r, hr⟩ : ∃ r, (addEdges B (B.length - 1) [B.length])[i]? = some r :=
          ⟨_, List.getElem?_eq_getElem (by rw [hA'len]; exact him)⟩
        rw [recAt_eq_of (h1.trans hr)]
        exact noTermKinds_addEdges hNB r (List.getElem?_mem hr)
      · obtain ⟨ra, hra⟩ : ∃ ra, (pushState B Kind.termination)[i]? = some ra :=
          ⟨_, List.getElem?_eq_getElem (by omega)⟩
        obtain ⟨rb, hrb⟩ : ∃ rb, (pushState B Kind.termination)[i + 1]? = some rb :=
          ⟨_, List.getElem?_eq_getElem hi⟩
        rw [recAt_eq_of hra, recAt_eq_of hrb]
        exact pushState_chainOut hCB hBpos Kind.termination i ra rb hra hrb

/-- Witness for the amended C6 at the pattern `a+`: the `'a'` state (index
1) has no outgoing transition but is immediately followed by the plus
state. -/
theorem c6_termination_only_sink_witness :
    2 ≤ ([⟨Kind.start, [1, 2]⟩, ⟨Kind.ascii 'a', []⟩, ⟨Kind.plus (Kind.ascii 'a'), [2, 3]⟩,
        ⟨Kind.termination, []⟩] : List StateRec).length ∧
    (recAt [⟨Kind.start, [1, 2]⟩, ⟨Kind.ascii 'a', []⟩, ⟨Kind.plus (Kind.ascii 'a'), [2, 3]⟩,
        ⟨Kind.termination, []⟩] 3).kind = Kind.termination ∧
    (recAt [⟨Kind.start, [1, 2]⟩, ⟨Kind.ascii 'a', []⟩, ⟨Kind.plus (Kind.ascii 'a'), [2, 3]⟩,
        ⟨Kind.termination, []⟩] 3).next = [] ∧
    ∀ i, i + 1 < ([⟨Kind.start, [1, 2]⟩, ⟨Kind.ascii 'a', []⟩,
        ⟨Kind.plus (Kind.ascii 'a'), [2, 3]⟩, ⟨Kind.termination, []⟩] : List StateRec).length →
      (recAt [⟨Kind.start, [1, 2]⟩, ⟨Kind.ascii 'a', []⟩, ⟨Kind.plus (Kind.ascii 'a'), [2, 3]⟩,
          ⟨Kind.termination, []⟩] i).kind ≠ Kind.termination ∧
      ((recAt [⟨Kind.start, [1, 2]⟩, ⟨Kind.ascii 'a', []⟩, ⟨Kind.plus (Kind.ascii 'a'), [2, 3]⟩,
          ⟨Kind.termination, []⟩] i).next ≠ [] ∨
        isPlus (recAt [⟨Kind.start, [1, 2]⟩, ⟨Kind.ascii 'a', []⟩,
          ⟨Kind.plus (Kind.ascii 'a'), [2, 3]⟩, ⟨Kind.termination, []⟩] (i + 1)).kind = true) :=
  c6_termination_only_sink ['a', '+'] _ rfl
